import Mathlib

/-!
# Verification of the Flux rich-list scanner

A shallow embedding of the incremental blockchain balance scanner of
`flux-explorer-next` (the scanner in `src/unnamed/part_003`, its HTTP
snapshot server in `src/unnamed/part_001`, and the adaptive configuration
selector in `src/flux-scanner/src/config.ts`), together with proofs of the
specified invariants.

Modelling conventions:
* JavaScript `Map<string, T>` objects are modelled as insertion-ordered
  association lists (`AddrMap`); `set` replaces the first matching entry in
  place or appends, `delete` removes the entry — exactly the observable
  `Map` semantics for maps whose keys are unique.
* Monetary amounts (`decimal` in the spec, IEEE floats in the code) are
  modelled as rationals; indexer values arrive as decimal satoshi strings
  and are modelled by their integer value (`Int`), with `none` standing for
  an absent or empty (falsy) `value` field.
* The `coinbase` field of an input is modelled as a `Bool` recording
  whether a truthy `coinbase` value is present.
* File-system and network effects are modelled by explicit data: the chain
  is a function from height to `Option Block` (`none` = fetch failure or
  malformed payload), and a scan run returns the ordered list of checkpoint
  writes, the optional snapshot write, the in-memory final state and the
  propagated result.
-/

/-- Association-list model of a JavaScript `Map` keyed by address strings. -/
def AddrMap (α : Type) : Type := List (String × α)

instance (α : Type) [DecidableEq α] : DecidableEq (AddrMap α) :=
  inferInstanceAs (DecidableEq (List (String × α)))

instance (α : Type) : Membership (String × α) (AddrMap α) :=
  inferInstanceAs (Membership (String × α) (List (String × α)))

/-- `Map.get`: value of the first entry with the given key. -/
def AddrMap.get {α : Type} : AddrMap α → String → Option α
  | [], _ => none
  | p :: rest, k => if p.1 = k then some p.2 else AddrMap.get rest k

/-- `Map.set`: replace the first entry with the given key in place, or
append a fresh entry at the end (JavaScript `Map` insertion order). -/
def AddrMap.set {α : Type} : AddrMap α → String → α → AddrMap α
  | [], k, v => [(k, v)]
  | p :: rest, k, v => if p.1 = k then (k, v) :: rest else p :: AddrMap.set rest k v

/-- `Map.delete`: remove the entry with the given key. -/
def AddrMap.del {α : Type} (m : AddrMap α) (k : String) : AddrMap α :=
  m.filter (fun p => p.1 ≠ k)

/-- The key list of a map, in insertion order. -/
def AddrMap.keys {α : Type} (m : AddrMap α) : List String :=
  m.map (fun p => p.1)

/-- An input (`vin` element) of an indexer transaction. -/
structure TxVin where
  coinbase : Bool
  addresses : Option (List String)
  value : Option Int
deriving DecidableEq

/-- An output (`vout` element) of an indexer transaction. -/
structure TxVout where
  addresses : Option (List String)
  value : Option Int
deriving DecidableEq

/-- A `BlockbookTransaction`: optional input and output lists. -/
structure BlockbookTransaction where
  txid : String
  vin : Option (List TxVin)
  vout : Option (List TxVout)
deriving DecidableEq

/-- A block together with its fully fetched transactions. -/
structure Block where
  txs : List BlockbookTransaction
deriving DecidableEq

/-- The scanner's in-memory state (`ScanState` in `types.ts`). -/
structure ScanState where
  lastScannedBlock : Nat
  addressBalances : AddrMap ℚ
  addressTxCounts : AddrMap Nat
  totalSupply : ℚ
deriving DecidableEq

/-- `satoshisToFlux`: convert integer satoshis to FLUX via the fixed 10^8
divisor. -/
def satoshisToFlux (satoshis : Int) : ℚ :=
  (satoshis : ℚ) / 100000000

/-- One address of the input pass of `processTransaction`: subtract the
amount from the running delta and increment the tx count. -/
def inAddrStep (amount : ℚ) (p : AddrMap ℚ × AddrMap Nat) (address : String) :
    AddrMap ℚ × AddrMap Nat :=
  let current := (p.1.get address).getD 0
  let deltas := p.1.set address (current - amount)
  let txCount := (p.2.get address).getD 0
  (deltas, p.2.set address (txCount + 1))

/-- One `vin` element of the input pass: coinbase inputs are skipped, and
inputs lacking an address list or a value are skipped. -/
def inputStep (p : AddrMap ℚ × AddrMap Nat) (input : TxVin) :
    AddrMap ℚ × AddrMap Nat :=
  if input.coinbase then p
  else
    match input.addresses, input.value with
    | some addrs, some v => addrs.foldl (inAddrStep (satoshisToFlux v)) p
    | _, _ => p

/-- One address of the output pass of `processTransaction`: add the amount
to the running delta, then increment the tx count when the delta map lacks
the address or the recorded delta is non-negative (the code performs this
test after the `set`, so the first disjunct can never fire). -/
def outAddrStep (amount : ℚ) (p : AddrMap ℚ × AddrMap Nat) (address : String) :
    AddrMap ℚ × AddrMap Nat :=
  let current := (p.1.get address).getD 0
  let deltas := p.1.set address (current + amount)
  let counts :=
    if ¬(deltas.get address).isSome ∨ 0 ≤ (deltas.get address).getD 0 then
      p.2.set address ((p.2.get address).getD 0 + 1)
    else p.2
  (deltas, counts)

/-- One `vout` element of the output pass: outputs lacking an address list
or a value are skipped. -/
def outputStep (p : AddrMap ℚ × AddrMap Nat) (output : TxVout) :
    AddrMap ℚ × AddrMap Nat :=
  match output.addresses, output.value with
  | some addrs, some v => addrs.foldl (outAddrStep (satoshisToFlux v)) p
  | _, _ => p

/-- Apply one accumulated per-address delta to the ledger: a resulting
balance > 0 is stored, otherwise the address is removed from both the
balance and tx-count maps. -/
def applyDelta (st : ScanState) (entry : String × ℚ) : ScanState :=
  let currentBalance := (st.addressBalances.get entry.1).getD 0
  let newBalance := currentBalance + entry.2
  if 0 < newBalance then
    { st with addressBalances := st.addressBalances.set entry.1 newBalance }
  else
    { st with
      addressBalances := st.addressBalances.del entry.1
      addressTxCounts := st.addressTxCounts.del entry.1 }

/-- `processTransaction`: compute per-address deltas over the inputs then
the outputs (updating tx counts along the way), then apply every delta to
the balance ledger. -/
def processTransaction (tx : BlockbookTransaction) (st : ScanState) : ScanState :=
  let acc0 : AddrMap ℚ × AddrMap Nat := ([], st.addressTxCounts)
  let acc1 := (tx.vin.getD []).foldl inputStep acc0
  let acc2 := (tx.vout.getD []).foldl outputStep acc1
  let st1 := { st with addressTxCounts := acc2.2 }
  acc2.1.foldl applyDelta st1

/-- `processBlock`: apply every transaction of the block in order, then
record the block height as scanned. -/
def processBlock (blk : Block) (height : Nat) (st : ScanState) : ScanState :=
  let st' := blk.txs.foldl (fun s tx => processTransaction tx s) st
  { st' with lastScannedBlock := height }

/-- The persisted checkpoint file, as seen at startup: absent, present but
unparseable, or a successfully parsed state (with the `|| 0` /
`|| {}` defaults of a partial document already applied). -/
inductive CheckpointFile where
  | absent
  | corrupt
  | valid (s : ScanState)
deriving DecidableEq

/-- The fresh state used when no usable checkpoint exists. -/
def initialScanState : ScanState :=
  { lastScannedBlock := 0
    addressBalances := []
    addressTxCounts := []
    totalSupply := 0 }

/-- `loadScanState`: read the persisted state; any read or parse failure is
caught and yields the fresh state, so loading is total and never raises. -/
def loadScanState : CheckpointFile → ScanState
  | .absent => initialScanState
  | .corrupt => initialScanState
  | .valid s => s

/-- One entry of the generated rich list (`RichListAddress`). -/
structure RichListAddress where
  rank : Nat
  address : String
  balance : ℚ
  percentage : ℚ
  txCount : Nat
deriving DecidableEq

/-- The generated rich-list snapshot (`RichListData`). -/
structure RichListData where
  lastUpdate : String
  lastBlockHeight : Nat
  totalSupply : ℚ
  totalAddresses : Nat
  addresses : List RichListAddress
deriving DecidableEq

/-- The JavaScript comparator `(a, b) => b[1] - a[1]` orders entries by
descending balance; `Array.prototype.sort` is a stable sort. -/
def richListLe (a b : String × ℚ) : Bool :=
  decide (b.2 ≤ a.2)

/-- `generateRichList`: sum the unfiltered balances into `totalSupply`,
filter by the minimum balance, sort descending, assign 1-based ranks and
percentages over the unfiltered supply, and persist the supply back into
the state.  Returns the snapshot together with the updated state. -/
def generateRichList (minBalance : ℚ) (now : String) (st : ScanState)
    (currentHeight : Nat) : RichListData × ScanState :=
  let allAddresses := st.addressBalances
  let totalSupply := allAddresses.foldl (fun sum p => sum + p.2) 0
  let sortedAddresses :=
    (allAddresses.filter (fun p => decide (minBalance ≤ p.2))).mergeSort richListLe
  let addresses : List RichListAddress :=
    sortedAddresses.enum.map (fun q =>
      { rank := q.1 + 1
        address := q.2.1
        balance := q.2.2
        percentage := if 0 < totalSupply then q.2.2 / totalSupply * 100 else 0
        txCount := (st.addressTxCounts.get q.2.1).getD 0 })
  (⟨now, currentHeight, totalSupply, addresses.length, addresses⟩,
   { st with totalSupply := totalSupply })

/-- The world a scan run interacts with: the indexer's current height, the
chain contents (`none` = per-block fetch error or malformed payload), and
the wall-clock timestamp used in the emitted snapshot. -/
structure ScanEnv where
  height : Nat
  blocks : Nat → Option Block
  now : String

/-- The environment-derived pacing parameters used by the scan loop. -/
structure ScanConfig where
  checkpointInterval : Nat
  batchSize : Nat
deriving DecidableEq

/-- The observable outcome of one `scanBlockchain` run: the checkpoint
documents written in order, the snapshot document written (if any), the
final in-memory state, and the returned or propagated result (`error h`
records a failure while processing block `h`). -/
structure ScanOutcome where
  result : Except Nat Unit
  checkpointWrites : List ScanState
  snapshotWrite : Option RichListData
  finalState : ScanState

/-- The block-scanning loop of `scanBlockchain` over a list of heights,
carrying the `blocksProcessed` counter.  A successful block is applied and
followed by a checkpoint write whenever the counter reaches the checkpoint
interval; a failed block fetch writes the pre-block state and propagates
the failing height. -/
def scanLoop (env : ScanEnv) (cfg : ScanConfig) :
    ScanState → Nat → List Nat → List ScanState × ScanState × Except Nat Unit
  | st, _, [] => ([], st, .ok ())
  | st, blocksProcessed, h :: rest =>
    match env.blocks h with
    | none => ([st], st, .error h)
    | some blk =>
      let st' := processBlock blk h st
      let bp' := blocksProcessed + 1
      let writes := if bp' % cfg.checkpointInterval = 0 then [st'] else []
      let out := scanLoop env cfg st' bp' rest
      (writes ++ out.1, out.2)

/-- `scanBlockchain`: load the checkpoint, compare with the chain height,
and either return immediately (already up to date) or scan the missing
heights in ascending order, finishing with a final checkpoint write and a
snapshot write on success, or a checkpoint write and a propagated error on
a per-block failure. -/
def scanBlockchain (env : ScanEnv) (cfg : ScanConfig) (minBalance : ℚ)
    (file : CheckpointFile) : ScanOutcome :=
  let state := loadScanState file
  if env.height ≤ state.lastScannedBlock then
    { result := .ok ()
      checkpointWrites := []
      snapshotWrite := none
      finalState := state }
  else
    let hs := List.range' (state.lastScannedBlock + 1)
      (env.height - state.lastScannedBlock)
    match scanLoop env cfg state 0 hs with
    | (ws, fin, .error e) =>
      { result := .error e
        checkpointWrites := ws
        snapshotWrite := none
        finalState := fin }
    | (ws, fin, .ok _) =>
      let pair := generateRichList minBalance env.now fin env.height
      { result := .ok ()
        checkpointWrites := ws ++ [fin]
        snapshotWrite := some pair.1
        finalState := pair.2 }

/-- Reference runner: fold the blocks of a height list into the state,
skipping heights whose fetch fails.  Used to characterise the states that
`scanLoop` reaches at whole-block boundaries. -/
def runBlocks (env : ScanEnv) (st : ScanState) (hs : List Nat) : ScanState :=
  hs.foldl (fun s h =>
    match env.blocks h with
    | some blk => processBlock blk h s
    | none => s) st

/-- JavaScript `parseInt(q) || d` over a query parameter: an absent or
non-numeric parameter and the (falsy) value `0` both fall back to the
default. -/
def queryOr (q : Option Nat) (d : Nat) : Nat :=
  match q with
  | none => d
  | some 0 => d
  | some n => n

/-- Response shape of `GET /rich-list/paginated`. -/
structure PaginatedResponse where
  lastUpdate : String
  lastBlockHeight : Nat
  totalSupply : ℚ
  totalAddresses : Nat
  page : Nat
  pageSize : Nat
  totalPages : Nat
  addresses : List RichListAddress
deriving DecidableEq

/-- The `GET /rich-list/paginated` handler over an already-read snapshot:
`page` defaults to 1, `pageSize` defaults to 100 and is clamped to 1000;
the slice is `addresses.slice((page-1)*pageSize, page*pageSize)` and
`totalPages = ceil(addresses.length / pageSize)`. -/
def paginatedHandler (richList : RichListData) (pageQ pageSizeQ : Option Nat) :
    PaginatedResponse :=
  let page := queryOr pageQ 1
  let pageSize := min (queryOr pageSizeQ 100) 1000
  let startIndex := (page - 1) * pageSize
  let paginatedAddresses := (richList.addresses.drop startIndex).take pageSize
  { lastUpdate := richList.lastUpdate
    lastBlockHeight := richList.lastBlockHeight
    totalSupply := richList.totalSupply
    totalAddresses := richList.totalAddresses
    page := page
    pageSize := pageSize
    totalPages := (richList.addresses.length + pageSize - 1) / pageSize
    addresses := paginatedAddresses }

/-- Character-list prefix test (JavaScript `String.startsWith` on the
decomposed string). -/
def charsPrefix : List Char → List Char → Bool
  | [], _ => true
  | _ :: _, [] => false
  | c :: cs, d :: ds => c = d && charsPrefix cs ds

/-- Character-list substring test. -/
def charsContains (sub : List Char) : List Char → Bool
  | [] => charsPrefix sub []
  | c :: rest => charsPrefix sub (c :: rest) || charsContains sub rest

/-- JavaScript `String.prototype.includes`. -/
def strIncludes (s sub : String) : Bool :=
  charsContains sub.data s.data

/-- JavaScript `String.prototype.startsWith`. -/
def strStartsWith (s pre : String) : Bool :=
  charsPrefix pre.data s.data

/-- `detectApiMode` from `config.ts`: classify a Blockbook URL as `"local"`
or `"public"` from its textual shape.  The `172.(16..31).` alternation of
the source regular expression is expanded into the sixteen concrete
prefixes it denotes. -/
def detectApiMode (apiUrl : String) : String :=
  let isLocal :=
    strIncludes apiUrl "localhost" ||
    strIncludes apiUrl "127.0.0.1" ||
    strIncludes apiUrl "::1" ||
    strIncludes apiUrl "flux" ||
    strStartsWith apiUrl "http://10." ||
    strStartsWith apiUrl "http://192.168." ||
    (List.range' 16 16).any
      (fun n => strStartsWith apiUrl ("http://172." ++ toString n ++ ".")) ||
    strStartsWith apiUrl "http://flux"
  if isLocal then "local" else "public"

/-- Spec-side grouping: loopback addresses (`localhost`, `127.0.0.1`,
`::1`). -/
def isLoopbackUrl (url : String) : Bool :=
  strIncludes url "localhost" || strIncludes url "127.0.0.1" ||
  strIncludes url "::1"

/-- Spec-side grouping: RFC1918 private ranges as matched by the source
(`http://10.`, `http://192.168.`, `http://172.16.`–`http://172.31.`). -/
def isRfc1918Url (url : String) : Bool :=
  strStartsWith url "http://10." || strStartsWith url "http://192.168." ||
  (List.range' 16 16).any
    (fun n => strStartsWith url ("http://172." ++ toString n ++ "."))

/-- Spec-side grouping: the internal Flux service-naming convention
(a URL containing `flux`, or starting with `http://flux`). -/
def isInternalNameUrl (url : String) : Bool :=
  strIncludes url "flux" || strStartsWith url "http://flux"

/-! ## Map lemmas -/

theorem AddrMap.get_set_eq {α : Type} (m : AddrMap α) (k : String) (v : α) :
    (m.set k v).get k = some v := by
  induction m with
  | nil => simp [AddrMap.set, AddrMap.get]
  | cons p rest ih =>
    by_cases h : p.1 = k
    · simp [AddrMap.set, h, AddrMap.get]
    · simp [AddrMap.set, h, AddrMap.get, ih]

theorem AddrMap.get_set_ne {α : Type} (m : AddrMap α) {k k' : String} (v : α)
    (h : k' ≠ k) : (m.set k v).get k' = m.get k' := by
  induction m with
  | nil => simp [AddrMap.set, AddrMap.get, Ne.symm h]
  | cons p rest ih =>
    by_cases hp : p.1 = k
    · subst hp
      simp [AddrMap.set, AddrMap.get, Ne.symm h]
    · simp only [AddrMap.set, hp, if_false, AddrMap.get, ih]

theorem AddrMap.get_del_eq {α : Type} (m : AddrMap α) (k : String) :
    (m.del k).get k = none := by
  induction m with
  | nil => simp [AddrMap.del, AddrMap.get]
  | cons p rest ih =>
    by_cases hp : p.1 = k
    · simpa [AddrMap.del, hp] using ih
    · simpa [AddrMap.del, AddrMap.get, hp] using ih

theorem AddrMap.get_del_ne {α : Type} (m : AddrMap α) {k k' : String}
    (h : k' ≠ k) : (m.del k).get k' = m.get k' := by
  induction m with
  | nil => rfl
  | cons p rest ih =>
    by_cases hp : p.1 = k
    · have hdel : AddrMap.del (p :: rest) k = AddrMap.del rest k := by
        simp [AddrMap.del, hp]
      rw [hdel, ih]
      simp [AddrMap.get, hp, Ne.symm h]
    · have hdel : AddrMap.del (p :: rest) k = p :: AddrMap.del rest k := by
        simp [AddrMap.del, hp]
      rw [hdel]
      by_cases hk' : p.1 = k'
      · simp [AddrMap.get, hk']
      · simp [AddrMap.get, hk', ih]

theorem AddrMap.mem_set {α : Type} {m : AddrMap α} {k : String} {v : α}
    {p : String × α} (h : p ∈ m.set k v) : p = (k, v) ∨ p ∈ m := by
  induction m with
  | nil =>
    simp only [AddrMap.set] at h
    exact Or.inl (List.mem_singleton.mp h)
  | cons q rest ih =>
    by_cases hq : q.1 = k
    · simp only [AddrMap.set, hq, if_true] at h
      rcases List.mem_cons.mp h with h | h
      · exact Or.inl h
      · exact Or.inr (List.mem_cons_of_mem _ h)
    · simp only [AddrMap.set, hq, if_false] at h
      rcases List.mem_cons.mp h with h | h
      · exact Or.inr (h ▸ List.mem_cons_self _ _)
      · rcases ih h with h' | h'
        · exact Or.inl h'
        · exact Or.inr (List.mem_cons_of_mem _ h')

theorem AddrMap.mem_del {α : Type} {m : AddrMap α} {k : String}
    {p : String × α} (h : p ∈ m.del k) : p ∈ m :=
  List.mem_of_mem_filter h

theorem AddrMap.mem_keys_set {α : Type} {m : AddrMap α} {k a : String} {v : α}
    (h : a ∈ (m.set k v).keys) : a = k ∨ a ∈ m.keys := by
  simp only [AddrMap.keys, List.mem_map] at h
  rcases h with ⟨p, hp, rfl⟩
  rcases AddrMap.mem_set hp with h' | h'
  · exact Or.inl (by rw [h'])
  · exact Or.inr (by simp only [AddrMap.keys, List.mem_map]; exact ⟨p, h', rfl⟩)

theorem AddrMap.nodup_keys_set {α : Type} {m : AddrMap α} (k : String) (v : α)
    (h : m.keys.Nodup) : (m.set k v).keys.Nodup := by
  induction m with
  | nil => simp [AddrMap.set, AddrMap.keys]
  | cons p rest ih =>
    simp only [AddrMap.keys, List.map_cons, List.nodup_cons] at h
    by_cases hp : p.1 = k
    · subst hp
      simpa [AddrMap.set, AddrMap.keys, List.nodup_cons] using h
    · simp only [AddrMap.set, hp, if_false, AddrMap.keys, List.map_cons,
        List.nodup_cons]
    
      refine ⟨fun hmem => ?_, ih h.2⟩
      rcases AddrMap.mem_keys_set hmem with h' | h'
      · exact hp h'
      · exact h.1 h'

theorem AddrMap.nodup_keys_del {α : Type} {m : AddrMap α} (k : String)
    (h : m.keys.Nodup) : (m.del k).keys.Nodup := by
  have hsub : (m.del k).keys.Sublist m.keys :=
    List.Sublist.map _ (List.filter_sublist m)
  exact h.sublist hsub

theorem AddrMap.get_eq_none_of_not_mem_keys {α : Type} {m : AddrMap α}
    {a : String} (h : a ∉ m.keys) : m.get a = none := by
  induction m with
  | nil => simp [AddrMap.get]
  | cons p rest ih =>
    simp only [AddrMap.keys, List.map_cons, List.mem_cons, not_or] at h
    simp [AddrMap.get, Ne.symm h.1, ih (by simpa [AddrMap.keys] using h.2)]

theorem AddrMap.mem_of_get {α : Type} {m : AddrMap α} {k : String} {v : α}
    (h : m.get k = some v) : (k, v) ∈ m := by
  induction m with
  | nil => simp [AddrMap.get] at h
  | cons p rest ih =>
    obtain ⟨a, b⟩ := p
    by_cases hp : a = k
    · subst hp
      simp [AddrMap.get] at h
      subst h
      exact List.mem_cons_self _ _
    · simp only [AddrMap.get, hp, if_false] at h
      exact List.mem_cons_of_mem _ (ih h)

theorem AddrMap.get_of_mem {α : Type} {m : AddrMap α} {k : String} {v : α}
    (hnd : m.keys.Nodup) (h : (k, v) ∈ m) : m.get k = some v := by
  induction m with
  | nil => exact absurd h (List.not_mem_nil _)
  | cons p rest ih =>
    simp only [AddrMap.keys, List.map_cons, List.nodup_cons] at hnd
    rcases List.mem_cons.mp h with h' | h'
    · rw [← h']
      simp [AddrMap.get]
    · have hk : p.1 ≠ k := by
        intro hpk
        apply hnd.1
        rw [hpk]
        exact List.mem_map.mpr ⟨(k, v), h', rfl⟩
      have hrest : (AddrMap.keys rest).Nodup := by
        simpa [AddrMap.keys] using hnd.2
      simp [AddrMap.get, hk, ih hrest h']

/-- A fold preserves any invariant preserved by each step. -/
theorem foldl_preserve {α β : Type} {P : β → Prop} {f : β → α → β}
    (hf : ∀ b a, P b → P (f b a)) :
    ∀ (l : List α) (b : β), P b → P (l.foldl f b)
  | [], _, hb => hb
  | a :: l, b, hb => foldl_preserve hf l (f b a) (hf b a hb)

/-! ## The ledger invariant (C1) -/

/-- Modelling well-formedness: a JavaScript `Map` never holds two entries
with the same key. -/
def ScanState.WF (st : ScanState) : Prop :=
  st.addressBalances.keys.Nodup ∧ st.addressTxCounts.keys.Nodup

/-- The spec's ledger invariant: any address whose (stored-or-zero) balance
is ≤ 0 is absent from both maps, and every stored balance entry is
strictly positive. -/
def LedgerInvariant (st : ScanState) : Prop :=
  (∀ p ∈ st.addressBalances, 0 < p.2) ∧
  (∀ a : String, (st.addressBalances.get a).getD 0 ≤ 0 →
    st.addressBalances.get a = none ∧ st.addressTxCounts.get a = none)

/-- Invariant carried through the delta-building passes of
`processTransaction`: key lists stay duplicate-free and an address that
never received a delta keeps its original tx count. -/
def PassInv (cnt0 : AddrMap Nat) (q : AddrMap ℚ × AddrMap Nat) : Prop :=
  q.1.keys.Nodup ∧ q.2.keys.Nodup ∧
  ∀ a : String, q.1.get a = none → q.2.get a = cnt0.get a

theorem passInv_inAddrStep {cnt0 : AddrMap Nat} (amt : ℚ)
    {q : AddrMap ℚ × AddrMap Nat} (a : String) (h : PassInv cnt0 q) :
    PassInv cnt0 (inAddrStep amt q a) := by
  obtain ⟨h1, h2, h3⟩ := h
  refine ⟨?_, ?_, ?_⟩
  · simpa [inAddrStep] using AddrMap.nodup_keys_set a _ h1
  · simpa [inAddrStep] using AddrMap.nodup_keys_set a _ h2
  · intro a' ha'
    simp only [inAddrStep] at ha' ⊢
    by_cases hq : a' = a
    · subst hq
      rw [AddrMap.get_set_eq] at ha'
      exact absurd ha' (by simp)
    · rw [AddrMap.get_set_ne _ _ hq] at ha'
      rw [AddrMap.get_set_ne _ _ hq]
      exact h3 a' ha'

theorem passInv_outAddrStep {cnt0 : AddrMap Nat} (amt : ℚ)
    {q : AddrMap ℚ × AddrMap Nat} (a : String) (h : PassInv cnt0 q) :
    PassInv cnt0 (outAddrStep amt q a) := by
  obtain ⟨h1, h2, h3⟩ := h
  refine ⟨?_, ?_, ?_⟩
  · simpa [outAddrStep] using AddrMap.nodup_keys_set a _ h1
  · simp only [outAddrStep]
    split
    · exact AddrMap.nodup_keys_set a _ h2
    · exact h2
  · intro a' ha'
    simp only [outAddrStep] at ha' ⊢
    by_cases hq : a' = a
    · subst hq
      rw [AddrMap.get_set_eq] at ha'
      exact absurd ha' (by simp)
    · rw [AddrMap.get_set_ne _ _ hq] at ha'
      split
      · rw [AddrMap.get_set_ne _ _ hq]
        exact h3 a' ha'
      · exact h3 a' ha'

theorem passInv_inputStep {cnt0 : AddrMap Nat} {q : AddrMap ℚ × AddrMap Nat}
    (input : TxVin) (h : PassInv cnt0 q) : PassInv cnt0 (inputStep q input) := by
  unfold inputStep
  split
  · exact h
  · split
    · exact foldl_preserve (fun b a hb => passInv_inAddrStep _ a hb) _ _ h
    · exact h

theorem passInv_outputStep {cnt0 : AddrMap Nat} {q : AddrMap ℚ × AddrMap Nat}
    (output : TxVout) (h : PassInv cnt0 q) : PassInv cnt0 (outputStep q output) := by
  unfold outputStep
  split
  · exact foldl_preserve (fun b a hb => passInv_outAddrStep _ a hb) _ _ h
  · exact h

theorem passInv_passes (tx : BlockbookTransaction) (cnt0 : AddrMap Nat)
    (h2 : cnt0.keys.Nodup) :
    PassInv cnt0 ((tx.vout.getD []).foldl outputStep
      ((tx.vin.getD []).foldl inputStep ([], cnt0))) := by
  have h0 : PassInv cnt0 ([], cnt0) := ⟨by simp [AddrMap.keys], h2, fun a _ => rfl⟩
  have h1 := foldl_preserve (fun b i hb => passInv_inputStep i hb)
    (tx.vin.getD []) _ h0
  exact foldl_preserve (fun b o hb => passInv_outputStep o hb)
    (tx.vout.getD []) _ h1

theorem applyDeltas_spec :
    ∀ (ds : List (String × ℚ)) (st : ScanState),
      (ds.map (fun p => p.1)).Nodup →
      st.addressBalances.keys.Nodup →
      st.addressTxCounts.keys.Nodup →
      (∀ a v, st.addressBalances.get a = some v → 0 < v) →
      (∀ a, st.addressBalances.get a = none → a ∉ ds.map (fun p => p.1) →
        st.addressTxCounts.get a = none) →
      ((ds.foldl applyDelta st).addressBalances.keys.Nodup ∧
        (ds.foldl applyDelta st).addressTxCounts.keys.Nodup) ∧
      (∀ a v, (ds.foldl applyDelta st).addressBalances.get a = some v → 0 < v) ∧
      (∀ a, (ds.foldl applyDelta st).addressBalances.get a = none →
        (ds.foldl applyDelta st).addressTxCounts.get a = none)
  | [], st, _, hb, hc, hpos, habs => by
    refine ⟨⟨hb, hc⟩, hpos, fun a ha => habs a ha (by simp)⟩
  | (a₀, d₀) :: ds, st, hnd, hb, hc, hpos, habs => by
    simp only [List.map_cons, List.nodup_cons] at hnd
    simp only [List.foldl_cons]
    by_cases hnew : 0 < (st.addressBalances.get a₀).getD 0 + d₀
    · have happ : applyDelta st (a₀, d₀) =
          { st with addressBalances :=
              st.addressBalances.set a₀ ((st.addressBalances.get a₀).getD 0 + d₀) } := by
        simp [applyDelta, hnew]
      rw [happ]
      refine applyDeltas_spec ds _ hnd.2 ?_ hc ?_ ?_
      · exact AddrMap.nodup_keys_set a₀ _ hb
      · intro a v ha
        by_cases hq : a = a₀
        · subst hq
          rw [AddrMap.get_set_eq] at ha
          cases ha
          exact hnew
        · rw [AddrMap.get_set_ne _ _ hq] at ha
          exact hpos a v ha
      · intro a ha hmem
        by_cases hq : a = a₀
        · subst hq
          rw [AddrMap.get_set_eq] at ha
          exact absurd ha (by simp)
        · rw [AddrMap.get_set_ne _ _ hq] at ha
          exact habs a ha (by simp [hq, hmem])
    · have happ : applyDelta st (a₀, d₀) =
          { st with addressBalances := st.addressBalances.del a₀
                    addressTxCounts := st.addressTxCounts.del a₀ } := by
        simp [applyDelta, hnew]
      rw [happ]
      refine applyDeltas_spec ds _ hnd.2 ?_ ?_ ?_ ?_
      · exact AddrMap.nodup_keys_del a₀ hb
      · exact AddrMap.nodup_keys_del a₀ hc
      · intro a v ha
        by_cases hq : a = a₀
        · subst hq
          rw [AddrMap.get_del_eq] at ha
          cases ha
        · rw [AddrMap.get_del_ne _ hq] at ha
          exact hpos a v ha
      · intro a ha hmem
        by_cases hq : a = a₀
        · subst hq
          exact AddrMap.get_del_eq _ _
        · rw [AddrMap.get_del_ne _ hq] at ha
          rw [AddrMap.get_del_ne _ hq]
          exact habs a ha (by simp [hq, hmem])

/-- C1: applying any transaction to any well-formed ledger state satisfying
the ledger invariant yields a state that satisfies it again: after all of
the transaction's balance deltas have been applied, every address whose
resulting balance is ≤ 0 is absent from both the balance and the tx-count
mapping, and every address present in the balance mapping has a strictly
positive balance. -/
theorem processTransaction_preserves_invariant (tx : BlockbookTransaction)
    (st : ScanState) (hWF : st.WF) (hInv : LedgerInvariant st) :
    (processTransaction tx st).WF ∧ LedgerInvariant (processTransaction tx st) := by
  obtain ⟨hbN, hcN⟩ := hWF
  obtain ⟨hpos, habs⟩ := hInv
  obtain ⟨hd1, hd2, hd3⟩ := passInv_passes tx st.addressTxCounts hcN
  have hposg : ∀ a v, st.addressBalances.get a = some v → 0 < v := by
    intro a v ha
    exact hpos (a, v) (AddrMap.mem_of_get ha)
  have hPT : processTransaction tx st =
      ((tx.vout.getD []).foldl outputStep
        ((tx.vin.getD []).foldl inputStep ([], st.addressTxCounts))).1.foldl
        applyDelta
        { st with addressTxCounts :=
            ((tx.vout.getD []).foldl outputStep
              ((tx.vin.getD []).foldl inputStep ([], st.addressTxCounts))).2 } := rfl
  set acc := (tx.vout.getD []).foldl outputStep
      ((tx.vin.getD []).foldl inputStep ([], st.addressTxCounts)) with hacc
  set st1 : ScanState := { st with addressTxCounts := acc.2 } with hst1
  have hspec := applyDeltas_spec acc.1 st1
    (by simpa [AddrMap.keys] using hd1)
    (by simpa [hst1] using hbN)
    (by simpa [hst1] using hd2)
    (by
      intro a v ha
      exact hposg a v (by simpa [hst1] using ha))
    (by
      intro a ha hmem
      have hdel : acc.1.get a = none :=
        AddrMap.get_eq_none_of_not_mem_keys (by simpa [AddrMap.keys] using hmem)
      have hbalnone : st.addressBalances.get a = none := by simpa [hst1] using ha
      have hclean := habs a (by simp [hbalnone])
      calc st1.addressTxCounts.get a = acc.2.get a := by simp [hst1]
        _ = st.addressTxCounts.get a := hd3 a hdel
        _ = none := hclean.2)
  rw [hPT]
  obtain ⟨⟨hwb, hwc⟩, hpos', habs'⟩ := hspec
  refine ⟨⟨hwb, hwc⟩, ?_, ?_⟩
  · intro p hp
    exact hpos' p.1 p.2 (AddrMap.get_of_mem hwb hp)
  · intro a hle
    cases hbal : (acc.1.foldl applyDelta st1).addressBalances.get a with
    | none => exact ⟨rfl, habs' a hbal⟩
    | some v =>
      have hv := hpos' a v hbal
      rw [hbal] at hle
      simp only [Option.getD_some] at hle
      exact absurd hv (not_lt.mpr hle)

/-- A concrete instance of C1: a coinbase-style transaction paying 5 FLUX
to a fresh address, applied to the empty initial state. -/
def txC1 : BlockbookTransaction :=
  { txid := "c1"
    vin := none
    vout := some [{ addresses := some ["t1KrichAddr"], value := some 500000000 }] }

theorem processTransaction_preserves_invariant_witness :
    (processTransaction txC1 initialScanState).WF ∧
      LedgerInvariant (processTransaction txC1 initialScanState) :=
  processTransaction_preserves_invariant txC1 initialScanState
    ⟨by simp [initialScanState, AddrMap.keys], by simp [initialScanState, AddrMap.keys]⟩
    ⟨fun p hp => absurd hp (List.not_mem_nil p),
     fun a _ => ⟨rfl, rfl⟩⟩

/-! ## Snapshot-server pagination (C6) -/

theorem natCeilDiv_eq (a b : ℕ) (hb : 0 < b) :
    (a + b - 1) / b = ⌈(a : ℚ) / (b : ℚ)⌉₊ := by
  have hdm := Nat.div_add_mod (a + b - 1) b
  rw [Nat.mul_comm] at hdm
  have hmlt : (a + b - 1) % b < b := Nat.mod_lt _ hb
  rcases Nat.eq_zero_or_pos a with rfl | ha
  · have hz : (b - 1) / b = 0 := Nat.div_eq_of_lt (by omega)
    simp [hz]
  · have hA : a ≤ (a + b - 1) / b * b := by omega
    have hq1 : (a + b - 1) / b ≠ 0 := by
      intro h0
      rw [h0] at hA
      simp at hA
      omega
    symm
    rw [Nat.ceil_eq_iff hq1]
    have hbq : (0 : ℚ) < (b : ℚ) := by exact_mod_cast hb
    constructor
    · rw [lt_div_iff₀ hbq]
      have hlt : ((a + b - 1) / b - 1) * b < a := by
        rw [Nat.sub_one_mul]
        omega
      exact_mod_cast hlt
    · rw [div_le_iff₀ hbq]
      exact_mod_cast hA

theorem one_le_queryOr (q : Option Nat) (d : Nat) (hd : 1 ≤ d) :
    1 ≤ queryOr q d := by
  cases q with
  | none => exact hd
  | some n =>
    cases n with
    | zero => exact hd
    | succ m => exact Nat.succ_le_succ (Nat.zero_le m)

/-- C6: the paginated endpoint clamps `pageSize` to at most 1000, treats
`page` as 1-based, reports `totalPages` as the ceiling of the address count
over the page size, returns an empty slice (not an error) for any page past
the end, and on a 250-address snapshot with page size 100 returns 50
addresses on page 3 and an empty array on page 4, with `totalPages = 3`. -/
theorem paginatedHandler_spec (rl : RichListData) (pageQ pageSizeQ : Option Nat) :
    (paginatedHandler rl pageQ pageSizeQ).pageSize ≤ 1000 ∧
    1 ≤ (paginatedHandler rl pageQ pageSizeQ).page ∧
    (paginatedHandler rl pageQ pageSizeQ).totalPages =
      ⌈(rl.addresses.length : ℚ) /
        ((paginatedHandler rl pageQ pageSizeQ).pageSize : ℚ)⌉₊ ∧
    (rl.addresses.length ≤
        ((paginatedHandler rl pageQ pageSizeQ).page - 1) *
          (paginatedHandler rl pageQ pageSizeQ).pageSize →
      (paginatedHandler rl pageQ pageSizeQ).addresses = []) ∧
    (rl.addresses.length = 250 →
      (paginatedHandler rl (some 3) (some 100)).addresses.length = 50 ∧
      (paginatedHandler rl (some 3) (some 100)).totalPages = 3 ∧
      (paginatedHandler rl (some 4) (some 100)).addresses = [] ∧
      (paginatedHandler rl (some 4) (some 100)).totalPages = 3) := by
  have hps : 1 ≤ min (queryOr pageSizeQ 100) 1000 :=
    le_min (one_le_queryOr _ _ (by omega)) (by omega)
  refine ⟨?_, ?_, ?_, ?_, ?_⟩
  · exact min_le_right _ _
  · exact one_le_queryOr _ _ le_rfl
  · exact natCeilDiv_eq _ _ (by omega)
  · intro hle
    simp only [paginatedHandler] at hle ⊢
    rw [List.drop_eq_nil_of_le hle, List.take_nil]
  · intro h250
    refine ⟨?_, ?_, ?_, ?_⟩
    · have he : (paginatedHandler rl (some 3) (some 100)).addresses =
          (rl.addresses.drop 200).take 100 := rfl
      rw [he, List.length_take, List.length_drop, h250]
      decide
    · have he : (paginatedHandler rl (some 3) (some 100)).totalPages =
          (rl.addresses.length + 100 - 1) / 100 := rfl
      rw [he, h250]
    · have he : (paginatedHandler rl (some 4) (some 100)).addresses =
          (rl.addresses.drop 300).take 100 := rfl
      rw [he, List.drop_eq_nil_of_le (by omega), List.take_nil]
    · have he : (paginatedHandler rl (some 4) (some 100)).totalPages =
          (rl.addresses.length + 100 - 1) / 100 := rfl
      rw [he, h250]

/-- Concrete snapshot used to witness C6. -/
def richList250 : RichListData :=
  { lastUpdate := "2024-01-01T00:00:00.000Z"
    lastBlockHeight := 1000
    totalSupply := 1000
    totalAddresses := 250
    addresses := List.replicate 250
      { rank := 1, address := "t1a", balance := 4, percentage := 0, txCount := 1 } }

theorem paginatedHandler_spec_witness :
    richList250.addresses.length = 250 ∧
    ((paginatedHandler richList250 (some 3) (some 100)).addresses.length = 50 ∧
      (paginatedHandler richList250 (some 3) (some 100)).totalPages = 3 ∧
      (paginatedHandler richList250 (some 4) (some 100)).addresses = [] ∧
      (paginatedHandler richList250 (some 4) (some 100)).totalPages = 3) :=
  ⟨by simp only [richList250, List.length_replicate],
   (paginatedHandler_spec richList250 (some 3) (some 100)).2.2.2.2
     (by simp only [richList250, List.length_replicate])⟩

/-! ## Checkpoint loading (C7) -/

/-- C7: whether the checkpoint file is absent or present but corrupt,
loading succeeds (the handler is total — the `catch` swallows the error)
and yields the initial state: height 0, empty balance and tx-count maps,
and zero total supply. -/
theorem loadScanState_recovers (f : CheckpointFile)
    (h : f = CheckpointFile.absent ∨ f = CheckpointFile.corrupt) :
    (loadScanState f).lastScannedBlock = 0 ∧
    (loadScanState f).addressBalances = [] ∧
    (loadScanState f).addressTxCounts = [] ∧
    (loadScanState f).totalSupply = 0 := by
  rcases h with rfl | rfl <;> exact ⟨rfl, rfl, rfl, rfl⟩

theorem loadScanState_recovers_witness :
    (CheckpointFile.absent = CheckpointFile.absent ∨
      CheckpointFile.absent = CheckpointFile.corrupt) ∧
    ((loadScanState CheckpointFile.absent).lastScannedBlock = 0 ∧
      (loadScanState CheckpointFile.absent).addressBalances = [] ∧
      (loadScanState CheckpointFile.absent).addressTxCounts = [] ∧
      (loadScanState CheckpointFile.absent).totalSupply = 0) :=
  ⟨Or.inl rfl, loadScanState_recovers CheckpointFile.absent (Or.inl rfl)⟩

/-! ## Endpoint classification (C8) -/

/-- C8: `detectApiMode` is a pure, deterministic function of the URL string
(it is a Lean function of the string alone); it returns `"local"` exactly
for URLs matching a loopback address, one of the RFC1918 private-range
patterns of the source, or the internal Flux service-naming convention, and
returns `"public"` for every other URL. -/
theorem detectApiMode_spec (url : String) :
    (detectApiMode url = "local" ↔
      (isLoopbackUrl url = true ∨ isRfc1918Url url = true ∨
        isInternalNameUrl url = true)) ∧
    (detectApiMode url = "local" ∨ detectApiMode url = "public") := by
  constructor
  · simp only [detectApiMode, isLoopbackUrl, isRfc1918Url, isInternalNameUrl,
      Bool.or_eq_true]
    split
    next hloc => exact iff_of_true rfl (by tauto)
    next hloc => refine iff_of_false (by decide) (by tauto)
  · simp only [detectApiMode]
    split
    · exact Or.inl rfl
    · exact Or.inr rfl

/-! ## Rich-list generation (C2, C10) -/

theorem richListLe_trans : ∀ (a b c : String × ℚ), richListLe a b = true →
    richListLe b c = true → richListLe a c = true := by
  intro a b c hab hbc
  simp only [richListLe, decide_eq_true_eq] at hab hbc ⊢
  exact le_trans hbc hab

theorem richListLe_total : ∀ (a b : String × ℚ),
    (richListLe a b || richListLe b a) = true := by
  intro a b
  simp only [richListLe, Bool.or_eq_true, decide_eq_true_eq]
  exact le_total b.2 a.2

/-- C2: the snapshot's `totalSupply` is the sum of all tracked balances
before the minimum-balance filter; every listed entry's percentage is
`balance / totalSupply * 100` over that unfiltered supply and its balance
meets the threshold (so a below-threshold address is excluded from the list
yet still counted in every denominator); the address list is sorted in
descending balance order; ranks are 1-based and contiguous. -/
theorem generateRichList_spec (mb : ℚ) (now : String) (st : ScanState) (H : Nat)
    (hts : 0 < (st.addressBalances.map (fun p => p.2)).sum) :
    (generateRichList mb now st H).1.totalSupply =
      (st.addressBalances.map (fun p => p.2)).sum ∧
    (∀ e ∈ (generateRichList mb now st H).1.addresses,
      e.percentage = e.balance / (generateRichList mb now st H).1.totalSupply * 100 ∧
      mb ≤ e.balance) ∧
    (∀ i j : Nat, ∀ hij : i < j,
      ∀ hj : j < (generateRichList mb now st H).1.addresses.length,
      ((generateRichList mb now st H).1.addresses.get ⟨j, hj⟩).balance ≤
        ((generateRichList mb now st H).1.addresses.get
          ⟨i, Nat.lt_trans hij hj⟩).balance) ∧
    (∀ i : Nat, ∀ hi : i < (generateRichList mb now st H).1.addresses.length,
      ((generateRichList mb now st H).1.addresses.get ⟨i, hi⟩).rank = i + 1) := by
  set S := st.addressBalances with hS
  set ts := S.foldl (fun sum p => sum + p.2) 0 with hts0
  set sorted := (S.filter (fun p => decide (mb ≤ p.2))).mergeSort richListLe
    with hsorted
  set F : Nat × (String × ℚ) → RichListAddress := (fun q =>
      { rank := q.1 + 1
        address := q.2.1
        balance := q.2.2
        percentage := if 0 < ts then q.2.2 / ts * 100 else 0
        txCount := (st.addressTxCounts.get q.2.1).getD 0 }) with hF
  have haddr : (generateRichList mb now st H).1.addresses = sorted.enum.map F := rfl
  have htot : (generateRichList mb now st H).1.totalSupply = ts := rfl
  have hsum : ts = (S.map (fun p => p.2)).sum := by
    rw [List.sum_eq_foldl, List.foldl_map]
  have htspos : 0 < ts := by
    rw [hsum]
    exact hts
  have hpair : List.Pairwise (fun a b => richListLe a b = true) sorted :=
    List.sorted_mergeSort richListLe_trans richListLe_total _
  have hlen : (sorted.enum.map F).length = sorted.length := by
    rw [List.length_map, List.enum_length]
  refine ⟨by rw [htot, hsum], ?_, ?_, ?_⟩
  · intro e he
    rw [haddr] at he
    obtain ⟨q, hq, rfl⟩ := List.mem_map.mp he
    obtain ⟨i, p⟩ := q
    have hmem : p ∈ sorted := by
      rw [List.enum_eq_zip_range] at hq
      exact (List.of_mem_zip hq).2
    have hfil : p ∈ S.filter (fun p => decide (mb ≤ p.2)) :=
      List.mem_mergeSort.mp hmem
    have hmb : mb ≤ p.2 := of_decide_eq_true (List.mem_filter.mp hfil).2
    constructor
    · rw [htot]
      simp only [hF, if_pos htspos]
    · simpa only [hF] using hmb
  · intro i j hij hj
    have hj' : j < sorted.length := by
      have hj2 := hj
      rw [haddr, hlen] at hj2
      exact hj2
    have hi' : i < sorted.length := Nat.lt_trans hij hj'
    have hrel := List.pairwise_iff_get.mp hpair ⟨i, hi'⟩ ⟨j, hj'⟩ hij
    simp only [richListLe, decide_eq_true_eq] at hrel
    show ((sorted.enum.map F).get ⟨j, by rw [hlen]; exact hj'⟩).balance ≤
      ((sorted.enum.map F).get ⟨i, by rw [hlen]; exact hi'⟩).balance
    simp only [List.get_eq_getElem, List.getElem_map, List.getElem_enum, hF]
    simpa only [List.get_eq_getElem] using hrel
  · intro i hi
    have hi' : i < sorted.length := by
      have hi2 := hi
      rw [haddr, hlen] at hi2
      exact hi2
    show ((sorted.enum.map F).get ⟨i, by rw [hlen]; exact hi'⟩).rank = i + 1
    simp only [List.get_eq_getElem, List.getElem_map, List.getElem_enum, hF]

/-- Concrete state used to witness C2: one rich address and one dust
address. -/
def scanStateC2 : ScanState :=
  { lastScannedBlock := 9
    addressBalances := [("t1rich", 5), ("t1dust", 1/2)]
    addressTxCounts := [("t1rich", 2), ("t1dust", 1)]
    totalSupply := 0 }

theorem generateRichList_spec_witness :
    0 < (scanStateC2.addressBalances.map (fun p => p.2)).sum ∧
    (generateRichList 1 "t" scanStateC2 9).1.totalSupply =
      (scanStateC2.addressBalances.map (fun p => p.2)).sum :=
  ⟨by norm_num [scanStateC2],
   (generateRichList_spec 1 "t" scanStateC2 9 (by norm_num [scanStateC2])).1⟩

/-- C10: the snapshot's `totalAddresses` counts only the addresses that
pass the minimum-balance filter, so whenever some tracked balance is below
the threshold it is strictly smaller than the number of tracked
addresses. -/
theorem generateRichList_totalAddresses (mb : ℚ) (now : String) (st : ScanState)
    (H : Nat) :
    (generateRichList mb now st H).1.totalAddresses =
      (st.addressBalances.filter (fun p => decide (mb ≤ p.2))).length ∧
    ((∃ p ∈ st.addressBalances, p.2 < mb) →
      (generateRichList mb now st H).1.totalAddresses <
        st.addressBalances.length) := by
  have hta : (generateRichList mb now st H).1.totalAddresses =
      (st.addressBalances.filter (fun p => decide (mb ≤ p.2))).length := by
    show (((st.addressBalances.filter
        (fun p => decide (mb ≤ p.2))).mergeSort richListLe).enum.map _).length = _
    rw [List.length_map, List.enum_length, List.length_mergeSort]
  refine ⟨hta, ?_⟩
  intro hex
  rw [hta]
  rw [List.length_filter_lt_length_iff_exists]
  obtain ⟨p, hp, hlt⟩ := hex
  exact ⟨p, hp, by simpa using not_le.mpr hlt⟩

/-- Concrete state used to witness C10: a ledger with one dust entry. -/
def scanStateC10 : ScanState :=
  { lastScannedBlock := 4
    addressBalances := [("t1whale", 40), ("t1small", 1/4)]
    addressTxCounts := [("t1whale", 3), ("t1small", 1)]
    totalSupply := 0 }

theorem generateRichList_totalAddresses_witness :
    (∃ p ∈ scanStateC10.addressBalances, p.2 < 1) ∧
    (generateRichList 1 "t" scanStateC10 4).1.totalAddresses <
      scanStateC10.addressBalances.length :=
  ⟨⟨("t1small", 1/4), List.mem_cons_of_mem _ (List.mem_cons_self _ _), by norm_num⟩,
   (generateRichList_totalAddresses 1 "t" scanStateC10 4).2
     ⟨("t1small", 1/4), List.mem_cons_of_mem _ (List.mem_cons_self _ _), by norm_num⟩⟩

/-! ## Scan engine (C3, C4, C5) -/

/-- Unfolding equation for `scanBlockchain`. -/
theorem scanBlockchain_eq (env : ScanEnv) (cfg : ScanConfig) (minBalance : ℚ)
    (file : CheckpointFile) :
    scanBlockchain env cfg minBalance file =
      if env.height ≤ (loadScanState file).lastScannedBlock then
        ⟨.ok (), [], none, loadScanState file⟩
      else
        match scanLoop env cfg (loadScanState file) 0
            (List.range' ((loadScanState file).lastScannedBlock + 1)
              (env.height - (loadScanState file).lastScannedBlock)) with
        | (ws, fin, .error e) => ⟨.error e, ws, none, fin⟩
        | (ws, fin, .ok _) =>
          ⟨.ok (), ws ++ [fin],
            some (generateRichList minBalance env.now fin env.height).1,
            (generateRichList minBalance env.now fin env.height).2⟩ := rfl

/-- C3: when the persisted height has already reached the chain height, the
scan run is a no-op: it succeeds, writes no checkpoint and no snapshot, and
leaves the in-memory ledger exactly as loaded, so both persisted documents
stay byte-identical. -/
theorem scanBlockchain_noop (env : ScanEnv) (cfg : ScanConfig) (minBalance : ℚ)
    (file : CheckpointFile)
    (h : env.height ≤ (loadScanState file).lastScannedBlock) :
    (scanBlockchain env cfg minBalance file).result = .ok () ∧
    (scanBlockchain env cfg minBalance file).checkpointWrites = [] ∧
    (scanBlockchain env cfg minBalance file).snapshotWrite = none ∧
    (scanBlockchain env cfg minBalance file).finalState = loadScanState file := by
  rw [scanBlockchain_eq, if_pos h]
  exact ⟨rfl, rfl, rfl, rfl⟩

/-- Environment used to witness C3: chain height 0, so an empty checkpoint
is already up to date. -/
def envC3 : ScanEnv :=
  { height := 0, blocks := fun _ => none, now := "t" }

theorem scanBlockchain_noop_witness :
    envC3.height ≤ (loadScanState CheckpointFile.absent).lastScannedBlock ∧
    ((scanBlockchain envC3 ⟨1000, 50⟩ 1 CheckpointFile.absent).result = .ok () ∧
      (scanBlockchain envC3 ⟨1000, 50⟩ 1 CheckpointFile.absent).checkpointWrites = [] ∧
      (scanBlockchain envC3 ⟨1000, 50⟩ 1 CheckpointFile.absent).snapshotWrite = none ∧
      (scanBlockchain envC3 ⟨1000, 50⟩ 1 CheckpointFile.absent).finalState =
        loadScanState CheckpointFile.absent) :=
  ⟨Nat.le_refl 0,
   scanBlockchain_noop envC3 ⟨1000, 50⟩ 1 CheckpointFile.absent (Nat.le_refl 0)⟩

theorem scanLoop_error_spec (env : ScanEnv) (cfg : ScanConfig) :
    ∀ (hs : List Nat) (st : ScanState) (bp k : Nat) (hk : k < hs.length),
      (∀ h ∈ hs.take k, (env.blocks h).isSome = true) →
      env.blocks (hs.get ⟨k, hk⟩) = none →
      (scanLoop env cfg st bp hs).2.2 = .error (hs.get ⟨k, hk⟩) ∧
      (scanLoop env cfg st bp hs).1.getLast? =
        some (runBlocks env st (hs.take k)) ∧
      (scanLoop env cfg st bp hs).2.1 = runBlocks env st (hs.take k)
  | [], _, _, k, hk, _, _ => absurd hk (by simp)
  | h :: rest, st, bp, 0, hk, _, hfail => by
    simp only [List.get_eq_getElem, List.getElem_cons_zero] at hfail
    simp [scanLoop, hfail, runBlocks]
  | h :: rest, st, bp, k + 1, hk, hsucc, hfail => by
    have hhead : (env.blocks h).isSome = true :=
      hsucc h (by simp [List.take_succ_cons])
    obtain ⟨blk, hblk⟩ := Option.isSome_iff_exists.mp hhead
    have hk' : k < rest.length := Nat.lt_of_succ_lt_succ hk
    have hsucc' : ∀ x ∈ rest.take k, (env.blocks x).isSome = true := by
      intro x hx
      exact hsucc x (by simp [List.take_succ_cons, hx])
    have hfail' : env.blocks (rest.get ⟨k, hk'⟩) = none := by
      simpa using hfail
    obtain ⟨ih1, ih2, ih3⟩ :=
      scanLoop_error_spec env cfg rest (processBlock blk h st) (bp + 1) k hk'
        hsucc' hfail'
    have hrun : runBlocks env st ((h :: rest).take (k + 1)) =
        runBlocks env (processBlock blk h st) (rest.take k) := by
      simp [List.take_succ_cons, runBlocks, hblk]
    refine ⟨?_, ?_, ?_⟩
    · simp only [scanLoop, hblk]
      simpa using ih1
    · simp only [scanLoop, hblk]
      rw [hrun, List.getLast?_append]
      simp [ih2]
    · simp only [scanLoop, hblk]
      rw [hrun]
      simpa using ih3

theorem scanLoop_ok_spec (env : ScanEnv) (cfg : ScanConfig) :
    ∀ (hs : List Nat) (st : ScanState) (bp : Nat),
      (∀ h ∈ hs, (env.blocks h).isSome = true) →
      (scanLoop env cfg st bp hs).2.2 = .ok () ∧
      (scanLoop env cfg st bp hs).2.1 = runBlocks env st hs
  | [], st, bp, _ => ⟨rfl, rfl⟩
  | h :: rest, st, bp, hsucc => by
    have hhead : (env.blocks h).isSome = true := hsucc h (by simp)
    obtain ⟨blk, hblk⟩ := Option.isSome_iff_exists.mp hhead
    obtain ⟨ih1, ih2⟩ := scanLoop_ok_spec env cfg rest (processBlock blk h st)
      (bp + 1) (fun x hx => hsucc x (by simp [hx]))
    refine ⟨?_, ?_⟩
    · simp only [scanLoop, hblk]
      simpa using ih1
    · simp only [scanLoop, hblk]
      have hrun : runBlocks env st (h :: rest) =
          runBlocks env (processBlock blk h st) rest := by
        simp [runBlocks, hblk]
      rw [hrun]
      simpa using ih2

theorem scanLoop_final_spec (env : ScanEnv) (cfg : ScanConfig) :
    ∀ (hs : List Nat) (st : ScanState) (bp : Nat),
      ∃ k, k ≤ hs.length ∧ (∀ h ∈ hs.take k, (env.blocks h).isSome = true) ∧
        (scanLoop env cfg st bp hs).2.1 = runBlocks env st (hs.take k)
  | [], st, bp => ⟨0, by simp, by simp, rfl⟩
  | h :: rest, st, bp => by
    cases hblk : env.blocks h with
    | none =>
      refine ⟨0, by simp, by simp, ?_⟩
      simp [scanLoop, hblk, runBlocks]
    | some blk =>
      obtain ⟨k, hk, hsucc, hfin⟩ :=
        scanLoop_final_spec env cfg rest (processBlock blk h st) (bp + 1)
      refine ⟨k + 1, by simpa using Nat.succ_le_succ hk, ?_, ?_⟩
      · intro x hx
        rw [List.take_succ_cons] at hx
        rcases List.mem_cons.mp hx with rfl | hx'
        · simp [hblk]
        · exact hsucc x hx'
      · simp only [scanLoop, hblk]
        have hrun : runBlocks env st ((h :: rest).take (k + 1)) =
            runBlocks env (processBlock blk h st) (rest.take k) := by
          simp [List.take_succ_cons, runBlocks, hblk]
        rw [hrun]
        simpa using hfin

theorem scanLoop_writes_spec (env : ScanEnv) (cfg : ScanConfig) :
    ∀ (hs : List Nat) (st : ScanState) (bp : Nat),
      ∀ w ∈ (scanLoop env cfg st bp hs).1,
        ∃ k, k ≤ hs.length ∧ (∀ h ∈ hs.take k, (env.blocks h).isSome = true) ∧
          w = runBlocks env st (hs.take k)
  | [], st, bp => by simp [scanLoop]
  | h :: rest, st, bp => by
    intro w hw
    cases hblk : env.blocks h with
    | none =>
      simp [scanLoop, hblk] at hw
      exact ⟨0, by simp, by simp, by simp [runBlocks, hw]⟩
    | some blk =>
      simp only [scanLoop, hblk] at hw
      rcases List.mem_append.mp hw with hw' | hw'
      · refine ⟨1, by simp, ?_, ?_⟩
        · intro x hx
          simp [List.take_succ_cons] at hx
          simp [hx, hblk]
        · have : w = processBlock blk h st := by
            by_cases hc : (bp + 1) % cfg.checkpointInterval = 0
            · simpa [hc] using hw'
            · simp [hc] at hw'
          simp [this, List.take_succ_cons, runBlocks, hblk]
      · obtain ⟨k, hk, hsucc, hweq⟩ :=
          scanLoop_writes_spec env cfg rest (processBlock blk h st) (bp + 1) w hw'
        refine ⟨k + 1, by simpa using Nat.succ_le_succ hk, ?_, ?_⟩
        · intro x hx
          rw [List.take_succ_cons] at hx
          rcases List.mem_cons.mp hx with rfl | hx'
          · simp [hblk]
          · exact hsucc x hx'
        · rw [hweq]
          simp [List.take_succ_cons, runBlocks, hblk]

/-- C4: when every block before index `k` of the missing range fetches
successfully and the fetch of the block at index `k` fails, the run
propagates that block's height as its error, emits no snapshot (so the
previous snapshot file is untouched), and the last checkpoint written is
exactly the state holding all progress made before the failing block. -/
theorem scanBlockchain_blockFailure (env : ScanEnv) (cfg : ScanConfig)
    (minBalance : ℚ) (file : CheckpointFile) (k : Nat)
    (hlt : (loadScanState file).lastScannedBlock < env.height)
    (hk : k < env.height - (loadScanState file).lastScannedBlock)
    (hsucc : ∀ h ∈ (List.range' ((loadScanState file).lastScannedBlock + 1)
        (env.height - (loadScanState file).lastScannedBlock)).take k,
      (env.blocks h).isSome = true)
    (hfail : env.blocks ((loadScanState file).lastScannedBlock + 1 + k) = none) :
    (scanBlockchain env cfg minBalance file).result =
      .error ((loadScanState file).lastScannedBlock + 1 + k) ∧
    (scanBlockchain env cfg minBalance file).snapshotWrite = none ∧
    (scanBlockchain env cfg minBalance file).checkpointWrites.getLast? =
      some (runBlocks env (loadScanState file)
        ((List.range' ((loadScanState file).lastScannedBlock + 1)
          (env.height - (loadScanState file).lastScannedBlock)).take k)) := by
  have hklen : k < (List.range' ((loadScanState file).lastScannedBlock + 1)
      (env.height - (loadScanState file).lastScannedBlock)).length := by
    simpa [List.length_range'] using hk
  have hget : (List.range' ((loadScanState file).lastScannedBlock + 1)
      (env.height - (loadScanState file).lastScannedBlock)).get ⟨k, hklen⟩ =
      (loadScanState file).lastScannedBlock + 1 + k := by
    simp [List.get_eq_getElem, List.getElem_range']
  obtain ⟨he, hwlast, hfin⟩ := scanLoop_error_spec env cfg _ (loadScanState file)
    0 k hklen hsucc (by rw [hget]; exact hfail)
  rw [hget] at he
  rcases hsl : scanLoop env cfg (loadScanState file) 0
      (List.range' ((loadScanState file).lastScannedBlock + 1)
        (env.height - (loadScanState file).lastScannedBlock)) with ⟨ws, fin, r⟩
  rw [hsl] at he hwlast hfin
  have he' : r = Except.error ((loadScanState file).lastScannedBlock + 1 + k) := he
  have hwlast' : ws.getLast? = some (runBlocks env (loadScanState file)
      ((List.range' ((loadScanState file).lastScannedBlock + 1)
        (env.height - (loadScanState file).lastScannedBlock)).take k)) := hwlast
  subst he'
  rw [scanBlockchain_eq, if_neg (not_le.mpr hlt), hsl]
  exact ⟨rfl, rfl, hwlast'⟩

/-- Environment used to witness C4: an empty checkpoint, chain height 1,
and a chain whose only block fails to fetch. -/
def envC4 : ScanEnv :=
  { height := 1, blocks := fun _ => none, now := "t" }

theorem scanBlockchain_blockFailure_witness :
    (loadScanState CheckpointFile.absent).lastScannedBlock < envC4.height ∧
    ((scanBlockchain envC4 ⟨1000, 50⟩ 1 CheckpointFile.absent).result =
      .error ((loadScanState CheckpointFile.absent).lastScannedBlock + 1 + 0) ∧
    (scanBlockchain envC4 ⟨1000, 50⟩ 1 CheckpointFile.absent).snapshotWrite = none ∧
    (scanBlockchain envC4 ⟨1000, 50⟩ 1
        CheckpointFile.absent).checkpointWrites.getLast? =
      some (runBlocks envC4 (loadScanState CheckpointFile.absent)
        ((List.range' ((loadScanState CheckpointFile.absent).lastScannedBlock + 1)
          (envC4.height -
            (loadScanState CheckpointFile.absent).lastScannedBlock)).take 0))) :=
  ⟨Nat.zero_lt_one,
   scanBlockchain_blockFailure envC4 ⟨1000, 50⟩ 1 CheckpointFile.absent 0
     Nat.zero_lt_one Nat.zero_lt_one
     (fun h hmem => absurd hmem (List.not_mem_nil h)) rfl⟩

theorem take_range' : ∀ (k a n : Nat),
    (List.range' a n).take k = List.range' a (min k n)
  | k, a, 0 => by simp
  | 0, a, n + 1 => by simp
  | k + 1, a, n + 1 => by
    rw [List.range'_succ, List.take_succ_cons, take_range' k (a + 1) n,
      Nat.succ_min_succ, List.range'_succ]

theorem runBlocks_range'_lastScanned (env : ScanEnv) :
    ∀ (m a : Nat) (st : ScanState),
      (∀ h ∈ List.range' a m, (env.blocks h).isSome = true) →
      (runBlocks env st (List.range' a m)).lastScannedBlock =
        if m = 0 then st.lastScannedBlock else a + m - 1
  | 0, a, st, _ => by simp [runBlocks]
  | m + 1, a, st, hsucc => by
    have hhead : (env.blocks a).isSome = true :=
      hsucc a (by simp [List.range'_succ])
    obtain ⟨blk, hblk⟩ := Option.isSome_iff_exists.mp hhead
    rw [List.range'_succ]
    have hrec := runBlocks_range'_lastScanned env m (a + 1) (processBlock blk a st)
      (fun h hm => hsucc h (by simp [List.range'_succ, hm]))
    have hrun : runBlocks env st (a :: List.range' (a + 1) m) =
        runBlocks env (processBlock blk a st) (List.range' (a + 1) m) := by
      simp [runBlocks, hblk]
    rw [hrun, hrec]
    rcases Nat.eq_zero_or_pos m with rfl | hm
    · simp [processBlock]
    · rw [if_neg (Nat.pos_iff_ne_zero.mp hm), if_neg (Nat.succ_ne_zero m)]
      omega

theorem scanLoop_ok_inv (env : ScanEnv) (cfg : ScanConfig) :
    ∀ (hs : List Nat) (st : ScanState) (bp : Nat),
      (scanLoop env cfg st bp hs).2.2 = .ok () →
      (∀ h ∈ hs, (env.blocks h).isSome = true) ∧
      (scanLoop env cfg st bp hs).2.1 = runBlocks env st hs
  | [], st, bp, _ => ⟨by simp, rfl⟩
  | h :: rest, st, bp, hok => by
    cases hblk : env.blocks h with
    | none =>
      rw [show (scanLoop env cfg st bp (h :: rest)).2.2 =
        Except.error h from by simp [scanLoop, hblk]] at hok
      exact absurd hok (by simp)
    | some blk =>
      have hok' : (scanLoop env cfg (processBlock blk h st) (bp + 1) rest).2.2 =
          .ok () := by
        rw [show (scanLoop env cfg st bp (h :: rest)).2.2 =
          (scanLoop env cfg (processBlock blk h st) (bp + 1) rest).2.2 from by
            simp [scanLoop, hblk]] at hok
        exact hok
      obtain ⟨ih1, ih2⟩ := scanLoop_ok_inv env cfg rest (processBlock blk h st)
        (bp + 1) hok'
      refine ⟨?_, ?_⟩
      · intro x hx
        rcases List.mem_cons.mp hx with rfl | hx'
        · simp [hblk]
        · exact ih1 x hx'
      · rw [show (scanLoop env cfg st bp (h :: rest)).2.1 =
          (scanLoop env cfg (processBlock blk h st) (bp + 1) rest).2.1 from by
            simp [scanLoop, hblk]]
        rw [ih2]
        simp [runBlocks, hblk]

theorem scanLoop_writes_lb (env : ScanEnv) (cfg : ScanConfig) :
    ∀ (n : Nat) (st : ScanState) (bp : Nat),
      ∀ w ∈ (scanLoop env cfg st bp
          (List.range' (st.lastScannedBlock + 1) n)).1,
        st.lastScannedBlock ≤ w.lastScannedBlock
  | 0, st, bp => by simp [scanLoop]
  | n + 1, st, bp => by
    intro w hw
    rw [List.range'_succ] at hw
    cases hblk : env.blocks (st.lastScannedBlock + 1) with
    | none =>
      simp [scanLoop, hblk] at hw
      simp [hw]
    | some blk =>
      simp only [scanLoop, hblk] at hw
      rcases List.mem_append.mp hw with hw' | hw'
      · have : w = processBlock blk (st.lastScannedBlock + 1) st := by
          by_cases hc : (bp + 1) % cfg.checkpointInterval = 0
          · simpa [hc] using hw'
          · simp [hc] at hw'
        rw [this]
        exact Nat.le_succ _
      · have hst' : (processBlock blk (st.lastScannedBlock + 1)
            st).lastScannedBlock = st.lastScannedBlock + 1 := rfl
        have hrec := scanLoop_writes_lb env cfg n
          (processBlock blk (st.lastScannedBlock + 1) st) (bp + 1) w
          (by rw [hst']; exact hw')
        omega

theorem scanLoop_writes_chain (env : ScanEnv) (cfg : ScanConfig) :
    ∀ (n : Nat) (st : ScanState) (bp : Nat),
      List.Chain' (fun w1 w2 => w1.lastScannedBlock ≤ w2.lastScannedBlock)
        (scanLoop env cfg st bp (List.range' (st.lastScannedBlock + 1) n)).1
  | 0, st, bp => by simp [scanLoop]
  | n + 1, st, bp => by
    rw [List.range'_succ]
    cases hblk : env.blocks (st.lastScannedBlock + 1) with
    | none => simp [scanLoop, hblk]
    | some blk =>
      simp only [scanLoop, hblk]
      rw [List.chain'_append]
      have hst' : (processBlock blk (st.lastScannedBlock + 1)
          st).lastScannedBlock = st.lastScannedBlock + 1 := rfl
      have hrec := scanLoop_writes_chain env cfg n
        (processBlock blk (st.lastScannedBlock + 1) st) (bp + 1)
      rw [hst'] at hrec
      refine ⟨?_, hrec, ?_⟩
      · by_cases hc : (bp + 1) % cfg.checkpointInterval = 0
        · simp [hc]
        · simp [hc]
      · intro x hx y hy
        have hxw : x = processBlock blk (st.lastScannedBlock + 1) st := by
          by_cases hc : (bp + 1) % cfg.checkpointInterval = 0
          · simp [hc] at hx
            exact hx.symm
          · simp [hc] at hx
        have hmem : y ∈ (scanLoop env cfg
            (processBlock blk (st.lastScannedBlock + 1) st) (bp + 1)
            (List.range' (st.lastScannedBlock + 1 + 1) n)).1 :=
          List.mem_of_mem_head? hy
        have := scanLoop_writes_lb env cfg n
          (processBlock blk (st.lastScannedBlock + 1) st) (bp + 1) y
          (by rw [hst']; exact hmem)
        rw [hxw, hst']
        rw [hst'] at this
        exact this

/-- C5: the heights of a scan run are strictly ascending; within a block,
transactions are folded in their given order and the block's height is
recorded only in the state produced after that fold; every checkpoint
written is a whole-block prefix state whose recorded height is the loaded
height plus the number of blocks applied (so no checkpoint is ever written
mid-block); successive checkpoint heights never decrease within a run; and
the final in-memory height never drops below the loaded height, so
`lastScannedHeight` is monotone within and across runs. -/
theorem scan_ordering (env : ScanEnv) (cfg : ScanConfig) (minBalance : ℚ)
    (file : CheckpointFile) :
    List.Chain' (· < ·) (List.range' ((loadScanState file).lastScannedBlock + 1)
      (env.height - (loadScanState file).lastScannedBlock)) ∧
    (∀ (blk : Block) (h : Nat) (st : ScanState),
      (processBlock blk h st).lastScannedBlock = h ∧
      (processBlock blk h st).addressBalances =
        (blk.txs.foldl (fun s tx => processTransaction tx s) st).addressBalances ∧
      (processBlock blk h st).addressTxCounts =
        (blk.txs.foldl (fun s tx => processTransaction tx s) st).addressTxCounts) ∧
    (∀ w ∈ (scanBlockchain env cfg minBalance file).checkpointWrites,
      ∃ k, k ≤ env.height - (loadScanState file).lastScannedBlock ∧
        w = runBlocks env (loadScanState file)
          ((List.range' ((loadScanState file).lastScannedBlock + 1)
            (env.height - (loadScanState file).lastScannedBlock)).take k) ∧
        w.lastScannedBlock = (loadScanState file).lastScannedBlock + k) ∧
    List.Chain' (fun w1 w2 => w1.lastScannedBlock ≤ w2.lastScannedBlock)
      (scanBlockchain env cfg minBalance file).checkpointWrites ∧
    (loadScanState file).lastScannedBlock ≤
      (scanBlockchain env cfg minBalance file).finalState.lastScannedBlock := by
  refine ⟨(List.pairwise_lt_range' _ _).chain',
    fun blk h st => ⟨rfl, rfl, rfl⟩, ?_⟩
  have hconv : ∀ k : Nat,
      k ≤ env.height - (loadScanState file).lastScannedBlock →
      (∀ h ∈ (List.range' ((loadScanState file).lastScannedBlock + 1)
          (env.height - (loadScanState file).lastScannedBlock)).take k,
        (env.blocks h).isSome = true) →
      (runBlocks env (loadScanState file)
        ((List.range' ((loadScanState file).lastScannedBlock + 1)
          (env.height -
            (loadScanState file).lastScannedBlock)).take k)).lastScannedBlock =
        (loadScanState file).lastScannedBlock + k := by
    intro k hk hsucc
    rw [take_range', Nat.min_eq_left hk] at hsucc ⊢
    rw [runBlocks_range'_lastScanned env k _ _ hsucc]
    rcases Nat.eq_zero_or_pos k with rfl | hkpos
    · simp
    · rw [if_neg (Nat.pos_iff_ne_zero.mp hkpos)]
      omega
  by_cases hle : env.height ≤ (loadScanState file).lastScannedBlock
  · have hout : scanBlockchain env cfg minBalance file =
        ⟨.ok (), [], none, loadScanState file⟩ := by
      rw [scanBlockchain_eq, if_pos hle]
    refine ⟨?_, ?_, ?_⟩
    · rw [hout]
      intro w hw
      exact absurd hw (List.not_mem_nil w)
    · rw [hout]
      exact List.chain'_nil
    · rw [hout]
  · rcases hsl : scanLoop env cfg (loadScanState file) 0
        (List.range' ((loadScanState file).lastScannedBlock + 1)
          (env.height - (loadScanState file).lastScannedBlock)) with ⟨ws, fin, r⟩
    have hlen : (List.range' ((loadScanState file).lastScannedBlock + 1)
        (env.height - (loadScanState file).lastScannedBlock)).length =
        env.height - (loadScanState file).lastScannedBlock := List.length_range' _ _ _
    have hwspec : ∀ w ∈ ws,
        ∃ k, k ≤ env.height - (loadScanState file).lastScannedBlock ∧
          (∀ h ∈ (List.range' ((loadScanState file).lastScannedBlock + 1)
              (env.height - (loadScanState file).lastScannedBlock)).take k,
            (env.blocks h).isSome = true) ∧
          w = runBlocks env (loadScanState file)
            ((List.range' ((loadScanState file).lastScannedBlock + 1)
              (env.height - (loadScanState file).lastScannedBlock)).take k) := by
      intro w hw
      have := scanLoop_writes_spec env cfg
        (List.range' ((loadScanState file).lastScannedBlock + 1)
          (env.height - (loadScanState file).lastScannedBlock))
        (loadScanState file) 0 w (by rw [hsl]; exact hw)
      obtain ⟨k, hk, hsucc, heq⟩ := this
      exact ⟨k, by rwa [hlen] at hk, hsucc, heq⟩
    have hchain : List.Chain'
        (fun w1 w2 => w1.lastScannedBlock ≤ w2.lastScannedBlock) ws := by
      have := scanLoop_writes_chain env cfg
        (env.height - (loadScanState file).lastScannedBlock)
        (loadScanState file) 0
      rw [hsl] at this
      exact this
    have hpack : ∀ w ∈ ws,
        ∃ k, k ≤ env.height - (loadScanState file).lastScannedBlock ∧
          w = runBlocks env (loadScanState file)
            ((List.range' ((loadScanState file).lastScannedBlock + 1)
              (env.height - (loadScanState file).lastScannedBlock)).take k) ∧
          w.lastScannedBlock = (loadScanState file).lastScannedBlock + k := by
      intro w hw
      obtain ⟨k, hk, hsucc, heq⟩ := hwspec w hw
      exact ⟨k, hk, heq, by rw [heq]; exact hconv k hk hsucc⟩
    cases r with
    | error e =>
      have hout : scanBlockchain env cfg minBalance file =
          ⟨.error e, ws, none, fin⟩ := by
        rw [scanBlockchain_eq, if_neg hle, hsl]
      have hfinal : ∃ k, k ≤ env.height - (loadScanState file).lastScannedBlock ∧
          (∀ h ∈ (List.range' ((loadScanState file).lastScannedBlock + 1)
              (env.height - (loadScanState file).lastScannedBlock)).take k,
            (env.blocks h).isSome = true) ∧
          fin = runBlocks env (loadScanState file)
            ((List.range' ((loadScanState file).lastScannedBlock + 1)
              (env.height - (loadScanState file).lastScannedBlock)).take k) := by
        obtain ⟨k, hk, hsucc, heq⟩ := scanLoop_final_spec env cfg
          (List.range' ((loadScanState file).lastScannedBlock + 1)
            (env.height - (loadScanState file).lastScannedBlock))
          (loadScanState file) 0
        rw [hsl] at heq
        exact ⟨k, by rwa [hlen] at hk, hsucc, heq⟩
      refine ⟨?_, ?_, ?_⟩
      · rw [hout]
        exact hpack
      · rw [hout]
        exact hchain
      · rw [hout]
        obtain ⟨k, hk, hsucc, heq⟩ := hfinal
        have := hconv k hk hsucc
        show (loadScanState file).lastScannedBlock ≤ fin.lastScannedBlock
        rw [heq, this]
        omega
    | ok u =>
      obtain ⟨hall, hfin⟩ := scanLoop_ok_inv env cfg
        (List.range' ((loadScanState file).lastScannedBlock + 1)
          (env.height - (loadScanState file).lastScannedBlock))
        (loadScanState file) 0 (by rw [hsl])
      rw [hsl] at hfin
      have hfin' : fin = runBlocks env (loadScanState file)
          ((List.range' ((loadScanState file).lastScannedBlock + 1)
            (env.height - (loadScanState file).lastScannedBlock)).take
              (env.height - (loadScanState file).lastScannedBlock)) := by
        rw [take_range', Nat.min_self]
        exact hfin
      have hflast : fin.lastScannedBlock =
          (loadScanState file).lastScannedBlock +
            (env.height - (loadScanState file).lastScannedBlock) := by
        rw [hfin']
        refine hconv _ le_rfl ?_
        intro h hm
        exact hall h (List.mem_of_mem_take hm)
      have hout : scanBlockchain env cfg minBalance file =
          ⟨.ok (), ws ++ [fin],
            some (generateRichList minBalance env.now fin env.height).1,
            (generateRichList minBalance env.now fin env.height).2⟩ := by
        rw [scanBlockchain_eq, if_neg hle, hsl]
      refine ⟨?_, ?_, ?_⟩
      · rw [hout]
        intro w hw
        rcases List.mem_append.mp hw with hw' | hw'
        · exact hpack w hw'
        · rw [List.mem_singleton.mp hw']
          refine ⟨env.height - (loadScanState file).lastScannedBlock, le_rfl,
            hfin', hflast⟩
      · rw [hout]
        rw [List.chain'_append]
        refine ⟨hchain, List.chain'_singleton fin, ?_⟩
        intro x hx y hy
        obtain ⟨hne, hxl⟩ := List.mem_getLast?_eq_getLast hx
        have hxw : x ∈ ws := hxl ▸ List.getLast_mem hne
        obtain ⟨k, hk, _, hxlast⟩ := hpack x hxw
        have hyfin : y = fin := by
          have := hy
          simp at this
          exact this.symm
        rw [hyfin, hxlast, hflast]
        omega
      · rw [hout]
        show (loadScanState file).lastScannedBlock ≤
          (generateRichList minBalance env.now fin env.height).2.lastScannedBlock
        have hg : (generateRichList minBalance env.now fin
            env.height).2.lastScannedBlock = fin.lastScannedBlock := rfl
        rw [hg, hflast]
        omega

/-- Environment used to witness C5: a single successfully fetched empty
block above an empty checkpoint. -/
def envC5 : ScanEnv :=
  { height := 1, blocks := fun _ => some { txs := [] }, now := "t" }

theorem scan_ordering_witness :
    (loadScanState CheckpointFile.absent).lastScannedBlock ≤
      (scanBlockchain envC5 ⟨1, 1⟩ 1
        CheckpointFile.absent).finalState.lastScannedBlock :=
  (scan_ordering envC5 ⟨1, 1⟩ 1 CheckpointFile.absent).2.2.2.2

/-! ## Output-pass tx counting (C9) -/

/-- A transaction whose single address appears both as input (spending 50
satoshis) and as output (receiving 100 satoshis), so its running delta at
the output is non-negative although it was already counted in the input
pass. -/
def txC9 : BlockbookTransaction :=
  { txid := "c9"
    vin := some [{ coinbase := false, addresses := some ["t1A"], value := some 50 }]
    vout := some [{ addresses := some ["t1A"], value := some 100 }] }

/-- Counterexample to C9 as stated: on `txC9` from the empty state, the
input pass already counts address `t1A` once, its running delta after the
output is non-negative, and the output pass increments the count again to
2 — so "incremented only when not already counted via the input pass" is
false of the code. -/
theorem outputPass_recounts_input_counted :
    (((txC9.vin.getD []).foldl inputStep
        ([], initialScanState.addressTxCounts)).2.get "t1A" = some 1) ∧
    (0 ≤ ((((txC9.vout.getD []).foldl outputStep
        ((txC9.vin.getD []).foldl inputStep
          ([], initialScanState.addressTxCounts))).1.get "t1A").getD 0)) ∧
    (((txC9.vout.getD []).foldl outputStep
        ((txC9.vin.getD []).foldl inputStep
          ([], initialScanState.addressTxCounts))).2.get "t1A" = some 2) ∧
    (processTransaction txC9 initialScanState).addressTxCounts.get "t1A" =
      some 2 := by
  refine ⟨?_, ?_, ?_, ?_⟩ <;>
    norm_num [txC9, initialScanState, processTransaction, inputStep, outputStep,
      inAddrStep, outAddrStep, applyDelta, AddrMap.get, AddrMap.set, AddrMap.del,
      satoshisToFlux]

/-- C9 amended: in the output pass the delta map always already contains
the address at the moment of the count test (the `set` precedes it), so the
"not already counted from inputs" disjunct is vacuous; the count is
incremented exactly when the running delta after adding this output's
amount is non-negative — independently of the input pass — and a negative
running delta yields no increment. -/
theorem outAddrStep_count_iff (amount : ℚ) (q : AddrMap ℚ × AddrMap Nat)
    (a : String) :
    outAddrStep amount q a =
      (q.1.set a ((q.1.get a).getD 0 + amount),
        if 0 ≤ (q.1.get a).getD 0 + amount then
          q.2.set a ((q.2.get a).getD 0 + 1)
        else q.2) := by
  simp [outAddrStep, AddrMap.get_set_eq]
